import Mathlib

/-!
Shallow embedding of `use-delay-follow-state` (src/src/index.ts).

The repository exposes two React hooks:

* `useDelayedState` — one observable value plus a mutable ref holding at most
  one pending `setTimeout` handle.  Operations: `setStateAfter(v, delayMS?)`
  and `cancelSetState()`; a `useEffect` cleanup clears any pending timer on
  unmount.
* `useFollowState` — an immediately-updated value paired with one owned
  `useDelayedState` instance (the "follow" value).  Operations:
  `setStateAndFollow(v, delayMS?)` and `revertStateToFollow()`.

We model the host's timer environment explicitly: a `DState` carries the list
of live one-shot timers (`timers`), the content of `timeoutRef` (`timeoutRef`),
and a fresh-handle counter, so that "at most one timer is alive" is a provable
invariant rather than a modelling assumption.  Each `setState` call of the
framework is additionally recorded in a ghost write log (`log`), modelling the
spec's "value changed → observer(s) notified" stream; this lets us state that
an operation performs no write at all, not merely that the value field is
unchanged.  Time is a natural number of milliseconds; a trace is a list of
timestamped calls with nondecreasing times, and between calls the host fires
every due timer (`fireDue`).
-/

set_option autoImplicit false

namespace DelayFollow

variable {T : Type}

/-- A live one-shot timer of the host environment: its handle (as returned by
`setTimeout`), its absolute fire time, and the value its callback will set. -/
structure Timer (T : Type) where
  handle : Nat
  fireAt : Nat
  val : T
deriving DecidableEq

/-- State of one `useDelayedState` instance together with its slice of the
timer environment.  `value` is the React state, `timeoutRef` the mutable ref
(`none` models both `undefined` and `null`), `timers` the live timers owned by
this instance, `nextHandle` a supply of fresh handles, and `log` the ghost
list of all values passed to `setState`, in order. -/
structure DState (T : Type) where
  value : T
  timers : List (Timer T)
  timeoutRef : Option Nat
  nextHandle : Nat
  log : List T
deriving DecidableEq

/-- Initial state of `useDelayedState(initialState)`: the initial value, no
timers, an empty ref. -/
def mkD (v : T) : DState T :=
  ⟨v, [], none, 0, []⟩

/-- The framework's `setState`: mutates the value and notifies observers
(recorded in the ghost log). -/
def setStateRaw (v : T) (s : DState T) : DState T :=
  { s with value := v, log := s.log ++ [v] }

/-- `cancelSetState`: if `timeoutRef.current` is set, `clearTimeout` it (the
timer with that handle is removed from the environment) and null the ref;
otherwise do nothing. -/
def cancelSetState (s : DState T) : DState T :=
  match s.timeoutRef with
  | some h =>
      { s with timers := s.timers.filter (fun tm => tm.handle != h),
               timeoutRef := none }
  | none => s

/-- `setStateAfter(newState, delayMS?)` issued at absolute time `now`:
first `cancelSetState()`; then, if the delay is `undefined` or `0`, set the
state synchronously, else arm a one-shot timer for `now + delayMS` and store
its handle in the ref. -/
def setStateAfter (now : Nat) (v : T) (d : Option Nat) (s0 : DState T) :
    DState T :=
  let s := cancelSetState s0
  match d with
  | none => setStateRaw v s
  | some dm =>
      if dm = 0 then setStateRaw v s
      else
        { s with timers := s.timers ++ [⟨s.nextHandle, now + dm, v⟩],
                 timeoutRef := some s.nextHandle,
                 nextHandle := s.nextHandle + 1 }

/-- The callback of a fired timer: `setState(newState)` then
`timeoutRef.current = null`; the one-shot timer itself is consumed by the
host. -/
def fireTimer (tm : Timer T) (s : DState T) : DState T :=
  { setStateRaw tm.val s with
      timeoutRef := none,
      timers := s.timers.filter (fun t2 => t2.handle != tm.handle) }

/-- Fire due timers one at a time with explicit fuel (each firing strictly
shrinks the timer list, and `timers.length` is enough fuel). -/
def fireDueAux (now : Nat) : Nat → DState T → DState T
  | 0, s => s
  | fuel + 1, s =>
      match s.timers.find? (fun tm => decide (tm.fireAt ≤ now)) with
      | none => s
      | some tm => fireDueAux now fuel (fireTimer tm s)

/-- The host scheduler at time `now`: run the callback of every timer whose
fire time has arrived.  (In every state reachable through the hook's API at
most one timer is alive, so the firing order is immaterial.) -/
def fireDue (now : Nat) (s : DState T) : DState T :=
  fireDueAux now s.timers.length s

/-- The `useEffect` cleanup on unmount: `if (timeoutRef.current)
clearTimeout(timeoutRef.current)` — the timer is destroyed (the ref itself is
not nulled, matching the source). -/
def unmountCleanup (s : DState T) : DState T :=
  match s.timeoutRef with
  | some h => { s with timers := s.timers.filter (fun tm => tm.handle != h) }
  | none => s

/-- The public calls of a `useDelayedState` instance. -/
inductive DCall (T : Type) where
  | set (v : T) (d : Option Nat)
  | cancel

/-- Execute one public call at time `now`. -/
def stepD (now : Nat) (c : DCall T) (s : DState T) : DState T :=
  match c with
  | .set v d => setStateAfter now v d s
  | .cancel => cancelSetState s

/-- Run a timestamped trace of calls (times nondecreasing); before each call
the host first fires every timer that came due. -/
def runD (s : DState T) : List (Nat × DCall T) → DState T
  | [] => s
  | (t, c) :: rest => runD (stepD t c (fireDue t s)) rest

/-- Observe the instance at time `t`: run the calls issued no later than `t`,
then let the host fire everything due by `t`. -/
def obsD (s : DState T) (evs : List (Nat × DCall T)) (t : Nat) : DState T :=
  fireDue t (runD s (evs.filter (fun e => decide (e.1 ≤ t))))

/-- At most one in-flight timer, and the ref points exactly at it.  This is
the reachable-state invariant of a `useDelayedState` instance. -/
def DInv (s : DState T) : Prop :=
  (s.timers = [] ∧ s.timeoutRef = none) ∨
  (∃ tm, s.timers = [tm] ∧ s.timeoutRef = some tm.handle)

/-! ### The follow hook -/

/-- State of one `useFollowState` instance: the immediate React state `state`
with its own ghost write log `slog`, plus the owned `useDelayedState`
instance holding the follow value. -/
structure FState (T : Type) where
  state : T
  slog : List T
  follow : DState T
deriving DecidableEq

/-- Initial state of `useFollowState(initialState)`: both slots start at the
initial value. -/
def mkF (v : T) : FState T :=
  ⟨v, [], mkD v⟩

/-- `setState` of the immediate slot (ghost-logged like the delayed slot's). -/
def fsetState (v : T) (s : FState T) : FState T :=
  { s with state := v, slog := s.slog ++ [v] }

/-- `setStateAndFollow(newState, delayMS?)` at time `now`: set the immediate
state synchronously, and forward the same value and delay to the owned
delayed slot. -/
def setStateAndFollow (now : Nat) (v : T) (d : Option Nat) (s : FState T) :
    FState T :=
  { fsetState v s with follow := setStateAfter now v d s.follow }

/-- `revertStateToFollow()`: cancel the follow slot's pending update, then,
only if the immediate state differs from the follow value, set the immediate
state to the follow value. -/
def revertStateToFollow [DecidableEq T] (s : FState T) : FState T :=
  let s1 : FState T := { s with follow := cancelSetState s.follow }
  if s.state ≠ s.follow.value then fsetState s.follow.value s1 else s1

/-- The public calls of a `useFollowState` instance. -/
inductive FCall (T : Type) where
  | setAndFollow (v : T) (d : Option Nat)
  | revert

/-- The host scheduler acting on the owned delayed slot. -/
def fireDueF (now : Nat) (s : FState T) : FState T :=
  { s with follow := fireDue now s.follow }

/-- Execute one public call at time `now`. -/
def stepF [DecidableEq T] (now : Nat) (c : FCall T) (s : FState T) :
    FState T :=
  match c with
  | .setAndFollow v d => setStateAndFollow now v d s
  | .revert => revertStateToFollow s

/-- Run a timestamped trace of calls (times nondecreasing). -/
def runF [DecidableEq T] (s : FState T) : List (Nat × FCall T) → FState T
  | [] => s
  | (t, c) :: rest => runF (stepF t c (fireDueF t s)) rest

/-- Observe the instance at time `t`. -/
def obsF [DecidableEq T] (s : FState T) (evs : List (Nat × FCall T))
    (t : Nat) : FState T :=
  fireDueF t (runF s (evs.filter (fun e => decide (e.1 ≤ t))))

/-! ### Basic lemmas -/

theorem cancelSetState_value (s : DState T) :
    (cancelSetState s).value = s.value := by
  unfold cancelSetState
  cases s.timeoutRef <;> rfl

theorem cancelSetState_log (s : DState T) :
    (cancelSetState s).log = s.log := by
  unfold cancelSetState
  cases s.timeoutRef <;> rfl

theorem cancelSetState_ref (s : DState T) :
    (cancelSetState s).timeoutRef = none := by
  unfold cancelSetState
  cases h : s.timeoutRef <;> simp [h]

theorem cancelSetState_of_ref_none (s : DState T)
    (h : s.timeoutRef = none) : cancelSetState s = s := by
  unfold cancelSetState
  rw [h]

theorem cancelSetState_timers_of_inv (s : DState T) (h : DInv s) :
    (cancelSetState s).timers = [] := by
  rcases h with ⟨ht, hr⟩ | ⟨tm, ht, hr⟩
  · rw [cancelSetState_of_ref_none s hr, ht]
  · unfold cancelSetState
    rw [hr, ht]
    simp

theorem fireDue_of_timers_nil (now : Nat) (s : DState T)
    (h : s.timers = []) : fireDue now s = s := by
  unfold fireDue
  rw [h]
  rfl

theorem fireTimer_timers_single (tm : Timer T) (s : DState T)
    (h : s.timers = [tm]) : (fireTimer tm s).timers = [] := by
  unfold fireTimer
  rw [h]
  simp [List.filter]

theorem fireDue_single (now : Nat) (s : DState T) (tm : Timer T)
    (h : s.timers = [tm]) :
    fireDue now s = if tm.fireAt ≤ now then fireTimer tm s else s := by
  have hlen : s.timers.length = 1 := by rw [h]; rfl
  unfold fireDue
  rw [hlen]
  by_cases hle : tm.fireAt ≤ now
  · rw [if_pos hle]
    simp [fireDueAux, h, List.find?, hle]
  · rw [if_neg hle]
    simp [fireDueAux, h, List.find?, hle]

theorem setStateAfter_none (now : Nat) (v : T) (s : DState T) :
    setStateAfter now v none s = setStateRaw v (cancelSetState s) := rfl

theorem setStateAfter_zero (now : Nat) (v : T) (s : DState T) :
    setStateAfter now v (some 0) s = setStateRaw v (cancelSetState s) := rfl

theorem setStateAfter_pos (now : Nat) (v : T) (dm : Nat) (hdm : dm ≠ 0)
    (s : DState T) :
    setStateAfter now v (some dm) s =
      { cancelSetState s with
          timers := (cancelSetState s).timers ++
            [⟨(cancelSetState s).nextHandle, now + dm, v⟩],
          timeoutRef := some (cancelSetState s).nextHandle,
          nextHandle := (cancelSetState s).nextHandle + 1 } := by
  unfold setStateAfter
  simp [hdm]

/-! ### Invariant preservation -/

theorem DInv_mkD (v : T) : DInv (mkD v) :=
  Or.inl ⟨rfl, rfl⟩

theorem DInv_cancelSetState (s : DState T) (h : DInv s) :
    DInv (cancelSetState s) :=
  Or.inl ⟨cancelSetState_timers_of_inv s h, cancelSetState_ref s⟩

theorem DInv_setStateAfter (now : Nat) (v : T) (d : Option Nat)
    (s : DState T) (h : DInv s) : DInv (setStateAfter now v d s) := by
  have hc : (cancelSetState s).timers = [] := cancelSetState_timers_of_inv s h
  have hr : (cancelSetState s).timeoutRef = none := cancelSetState_ref s
  match d with
  | none =>
      exact Or.inl ⟨hc, hr⟩
  | some dm =>
      by_cases hdm : dm = 0
      · subst hdm
        exact Or.inl ⟨hc, hr⟩
      · rw [setStateAfter_pos now v dm hdm s]
        refine Or.inr ⟨⟨(cancelSetState s).nextHandle, now + dm, v⟩, ?_, rfl⟩
        simp [hc]

theorem DInv_fireTimer_single (tm : Timer T) (s : DState T)
    (h : s.timers = [tm]) : DInv (fireTimer tm s) :=
  Or.inl ⟨fireTimer_timers_single tm s h, rfl⟩

theorem DInv_fireDue (now : Nat) (s : DState T) (h : DInv s) :
    DInv (fireDue now s) := by
  rcases h with ⟨ht, hr⟩ | ⟨tm, ht, hr⟩
  · rw [fireDue_of_timers_nil now s ht]
    exact Or.inl ⟨ht, hr⟩
  · rw [fireDue_single now s tm ht]
    by_cases hle : tm.fireAt ≤ now
    · rw [if_pos hle]
      exact DInv_fireTimer_single tm s ht
    · rw [if_neg hle]
      exact Or.inr ⟨tm, ht, hr⟩

theorem DInv_stepD (now : Nat) (c : DCall T) (s : DState T) (h : DInv s) :
    DInv (stepD now c s) := by
  match c with
  | .set v d => exact DInv_setStateAfter now v d s h
  | .cancel => exact DInv_cancelSetState s h

theorem DInv_runD (s : DState T) (evs : List (Nat × DCall T)) (h : DInv s) :
    DInv (runD s evs) := by
  induction evs generalizing s with
  | nil => exact h
  | cons e rest ih =>
      exact ih _ (DInv_stepD e.1 e.2 _ (DInv_fireDue e.1 s h))

theorem DInv_obsD (s : DState T) (evs : List (Nat × DCall T)) (t : Nat)
    (h : DInv s) : DInv (obsD s evs t) :=
  DInv_fireDue t _ (DInv_runD s _ h)

theorem DInv_timers_length (s : DState T) (h : DInv s) :
    s.timers.length ≤ 1 := by
  rcases h with ⟨ht, _⟩ | ⟨tm, ht, _⟩ <;> rw [ht] <;> simp

/-- State of a fresh instance right after `setStateAfter v1 (some d1)` at
time `t1` (with `d1 ≠ 0`): value untouched, one armed timer with handle `0`. -/
theorem runD_one_delayed (v0 v1 : T) (t1 d1 : Nat) (hd1 : d1 ≠ 0) :
    runD (mkD v0) [(t1, DCall.set v1 (some d1))] =
      ⟨v0, [⟨0, t1 + d1, v1⟩], some 0, 1, []⟩ := by
  simp [runD, stepD, fireDue, fireDueAux, mkD, setStateAfter, cancelSetState,
    hd1]

/-- Cancelling the armed state of `runD_one_delayed` disarms the timer. -/
theorem cancelSetState_armed (v0 v1 : T) (t1 d1 : Nat) :
    cancelSetState (⟨v0, [⟨0, t1 + d1, v1⟩], some 0, 1, []⟩ : DState T) =
      ⟨v0, [], none, 1, []⟩ := by
  simp [cancelSetState, List.filter]

/-- `fireDue_single` with the timer's fields exposed, so the guard is a bare
arithmetic comparison. -/
theorem fireDue_armed (now : Nat) (s : DState T) (h0 fa : Nat) (v : T)
    (h : s.timers = [⟨h0, fa, v⟩]) :
    fireDue now s = if fa ≤ now then fireTimer ⟨h0, fa, v⟩ s else s := by
  rw [fireDue_single now s ⟨h0, fa, v⟩ h]

theorem cancelSetState_nextHandle (s : DState T) :
    (cancelSetState s).nextHandle = s.nextHandle := by
  unfold cancelSetState
  cases s.timeoutRef <;> rfl

/-- After `setStateAfter v (some dm)` (with `dm ≠ 0`) from any reachable
state: exactly one armed timer for `now + dm` targeting `v`, value and log
untouched, and the ref holds the new handle. -/
theorem setStateAfter_armed_facts (now : Nat) (v : T) (dm : Nat)
    (hdm : dm ≠ 0) (s : DState T) (h : DInv s) :
    (setStateAfter now v (some dm) s).timers =
      [⟨s.nextHandle, now + dm, v⟩] ∧
    (setStateAfter now v (some dm) s).value = s.value ∧
    (setStateAfter now v (some dm) s).log = s.log ∧
    (setStateAfter now v (some dm) s).timeoutRef = some s.nextHandle := by
  have hc := cancelSetState_timers_of_inv s h
  have hnh := cancelSetState_nextHandle s
  rw [setStateAfter_pos now v dm hdm s]
  refine ⟨?_, cancelSetState_value s, cancelSetState_log s, ?_⟩
  · simp [hc, hnh]
  · simp [hnh]

/-- Observing a freshly armed delayed set: nothing happens strictly before
the deadline; at or after it the timer fires, writing the value once and
clearing ref and timers. -/
theorem fireDue_setStateAfter_pos (tq now dm : Nat) (v : T) (s : DState T)
    (h : DInv s) (hdm : dm ≠ 0) :
    (tq < now + dm →
       fireDue tq (setStateAfter now v (some dm) s) =
         setStateAfter now v (some dm) s) ∧
    (now + dm ≤ tq →
       (fireDue tq (setStateAfter now v (some dm) s)).value = v ∧
       (fireDue tq (setStateAfter now v (some dm) s)).timeoutRef = none ∧
       (fireDue tq (setStateAfter now v (some dm) s)).timers = [] ∧
       (fireDue tq (setStateAfter now v (some dm) s)).log = s.log ++ [v]) := by
  obtain ⟨hts, hval, hlog, href⟩ := setStateAfter_armed_facts now v dm hdm s h
  constructor
  · intro hlt
    rw [fireDue_armed tq _ s.nextHandle (now + dm) v hts,
      if_neg (by omega : ¬ (now + dm ≤ tq))]
  · intro hge
    rw [fireDue_armed tq _ s.nextHandle (now + dm) v hts, if_pos hge]
    refine ⟨rfl, rfl, ?_, ?_⟩
    · show (setStateAfter now v (some dm) s).timers.filter _ = []
      rw [hts]
      simp
    · show (setStateAfter now v (some dm) s).log ++ [v] = s.log ++ [v]
      rw [hlog]

/-! ### Claim theorems for the delayed-state hook -/

/-- C4: single pending timer invariant — after any sequence of
`setStateAfter` / `cancelSetState` calls, and at any observation moment, at
most one timer of a `useDelayedState` instance is alive. -/
theorem singleTimerInvariant (v0 : T) (evs : List (Nat × DCall T)) :
    (runD (mkD v0) evs).timers.length ≤ 1 ∧
    ∀ t, (obsD (mkD v0) evs t).timers.length ≤ 1 :=
  ⟨DInv_timers_length _ (DInv_runD _ _ (DInv_mkD v0)),
   fun t => DInv_timers_length _ (DInv_obsD _ _ t (DInv_mkD v0))⟩

/-- C5: `setStateAfter v (some 0)` and `setStateAfter v none` are the same
function on states; both set the value synchronously and (from any reachable
state) leave no pending timer. -/
theorem zeroDelayIsImmediate (now : Nat) (v : T) (s : DState T) :
    setStateAfter now v (some 0) s = setStateAfter now v none s ∧
    (setStateAfter now v none s).value = v ∧
    (setStateAfter now v none s).timeoutRef = none ∧
    (DInv s → (setStateAfter now v none s).timers = []) := by
  refine ⟨rfl, rfl, cancelSetState_ref s, fun h => ?_⟩
  exact cancelSetState_timers_of_inv s h

/-- Witness for C5 at a concrete state. -/
theorem zeroDelayIsImmediate_w :
    setStateAfter 5 7 (some 0) (mkD 0) = setStateAfter 5 7 none (mkD 0) ∧
    (setStateAfter 5 7 none (mkD 0)).value = 7 ∧
    (setStateAfter 5 7 none (mkD 0)).timers = [] := by
  have h := zeroDelayIsImmediate 5 7 (mkD 0)
  exact ⟨h.1, h.2.1, h.2.2.2 (DInv_mkD 0)⟩

/-- C7: the unmount cleanup destroys any pending timer without touching the
value or emitting a write, and afterwards the host scheduler can never
mutate the state again. -/
theorem teardownSilences (s : DState T) (h : DInv s) :
    (unmountCleanup s).timers = [] ∧
    (unmountCleanup s).value = s.value ∧
    (unmountCleanup s).log = s.log ∧
    ∀ t, fireDue t (unmountCleanup s) = unmountCleanup s := by
  have ht : (unmountCleanup s).timers = [] := by
    rcases h with ⟨ht, hr⟩ | ⟨tm, ht, hr⟩
    · unfold unmountCleanup
      rw [hr]
      exact ht
    · unfold unmountCleanup
      rw [hr, ht]
      simp
  refine ⟨ht, ?_, ?_, fun t => fireDue_of_timers_nil t _ ht⟩
  · unfold unmountCleanup
    cases s.timeoutRef <;> rfl
  · unfold unmountCleanup
    cases s.timeoutRef <;> rfl

/-- Witness for C7: dispose an instance with a timer armed for t = 10. -/
theorem teardownSilences_w :
    (unmountCleanup (setStateAfter 0 5 (some 10) (mkD 0))).timers = [] ∧
    (unmountCleanup (setStateAfter 0 5 (some 10) (mkD 0))).value = 0 ∧
    fireDue 99 (unmountCleanup (setStateAfter 0 5 (some 10) (mkD 0))) =
      unmountCleanup (setStateAfter 0 5 (some 10) (mkD 0)) := by
  have h := teardownSilences (setStateAfter 0 5 (some 10) (mkD 0))
    (DInv_setStateAfter 0 5 (some 10) (mkD 0) (DInv_mkD 0))
  exact ⟨h.1, h.2.1.trans rfl, h.2.2.2 99⟩

/-- C10: `cancelSetState` is idempotent — a second call in succession leaves
the entire state (value, timers, ref, log) exactly as after the first. -/
theorem cancelIdempotent (s : DState T) :
    cancelSetState (cancelSetState s) = cancelSetState s :=
  cancelSetState_of_ref_none _ (cancelSetState_ref s)

/-- C8: a delayed set performs no write at call time — value and write log
are untouched — and once the timer fires the value is the scheduled one and
the ref is cleared, with no timer left. -/
theorem delayedSetDefers (v0 v : T) (t0 d : Nat) (hd : 0 < d) :
    (∀ s : DState T, (setStateAfter t0 v (some d) s).value = s.value ∧
       (setStateAfter t0 v (some d) s).log = s.log) ∧
    (∀ t, t < t0 + d →
       (obsD (mkD v0) [(t0, DCall.set v (some d))] t).value = v0) ∧
    (∀ t, t0 + d ≤ t →
       (obsD (mkD v0) [(t0, DCall.set v (some d))] t).value = v ∧
       (obsD (mkD v0) [(t0, DCall.set v (some d))] t).timeoutRef = none ∧
       (obsD (mkD v0) [(t0, DCall.set v (some d))] t).timers = []) ∧
    (∀ s : DState T, DInv s → ∀ t, t < t0 + d →
       (fireDue t (setStateAfter t0 v (some d) s)).value = s.value ∧
       (fireDue t (setStateAfter t0 v (some d) s)).log = s.log) ∧
    (∀ s : DState T, DInv s → ∀ t, t0 + d ≤ t →
       (fireDue t (setStateAfter t0 v (some d) s)).value = v ∧
       (fireDue t (setStateAfter t0 v (some d) s)).timeoutRef = none) := by
  have hobs : ∀ t, t0 ≤ t →
      obsD (mkD v0) [(t0, DCall.set v (some d))] t =
        fireDue t (⟨v0, [⟨0, t0 + d, v⟩], some 0, 1, []⟩ : DState T) := by
    intro t ht
    unfold obsD
    rw [show List.filter (fun e => decide (e.1 ≤ t))
          [(t0, DCall.set v (some d))] = [(t0, DCall.set v (some d))] by
        simp [List.filter, ht]]
    rw [runD_one_delayed v0 v t0 d hd.ne']
  refine ⟨?_, ?_, ?_, ?_, ?_⟩
  · intro s
    rw [setStateAfter_pos t0 v d hd.ne' s]
    exact ⟨cancelSetState_value s, cancelSetState_log s⟩
  · intro t hlt
    by_cases ht : t0 ≤ t
    · rw [hobs t ht, fireDue_armed t _ 0 (t0 + d) v rfl,
        if_neg (by omega : ¬ (t0 + d ≤ t))]
    · unfold obsD
      rw [show List.filter (fun e => decide (e.1 ≤ t))
            [(t0, DCall.set v (some d))] = [] by simp [List.filter, ht]]
      rw [show runD (mkD v0) [] = mkD v0 from rfl,
        fireDue_of_timers_nil t _ rfl]
      rfl
  · intro t hge
    rw [hobs t (by omega), fireDue_armed t _ 0 (t0 + d) v rfl,
      if_pos (by omega : t0 + d ≤ t)]
    refine ⟨rfl, rfl, ?_⟩
    simp [fireTimer, setStateRaw]
  · intro s hs t hlt
    rw [(fireDue_setStateAfter_pos t t0 d v s hs hd.ne').1 hlt]
    obtain ⟨_, hval, hlog, _⟩ := setStateAfter_armed_facts t0 v d hd.ne' s hs
    exact ⟨hval, hlog⟩
  · intro s hs t hge
    obtain ⟨hv, hr, _, _⟩ := (fireDue_setStateAfter_pos t t0 d v s hs
      hd.ne').2 hge
    exact ⟨hv, hr⟩

/-- Witness for C8 at the concrete trace `setStateAfter(5, 10)` at t = 0. -/
theorem delayedSetDefers_w :
    (obsD (mkD 0) [(0, DCall.set 5 (some 10))] 3).value = 0 ∧
    (obsD (mkD 0) [(0, DCall.set 5 (some 10))] 10).value = 5 := by
  have h := delayedSetDefers 0 5 0 10 (by decide)
  exact ⟨h.2.1 3 (by decide), (h.2.2.1 10 (by decide)).1⟩

/-- C6: `cancelSetState` never changes the value or emits a write, clears
the ref, is a no-op when nothing is pending, disarms the pending timer, and
in a `setStateAfter(v, d)`-then-cancel trace the value stays at its initial
value at every time, including at and after `t1 + d`. -/
theorem cancelEffective (v0 v : T) (t1 d t2 : Nat)
    (hd : 0 < d) (h12 : t1 ≤ t2) (hlt : t2 < t1 + d) :
    (∀ s : DState T, (cancelSetState s).value = s.value ∧
       (cancelSetState s).log = s.log ∧
       (cancelSetState s).timeoutRef = none) ∧
    (∀ s : DState T, s.timeoutRef = none → cancelSetState s = s) ∧
    (∀ s : DState T, DInv s → (cancelSetState s).timers = []) ∧
    (∀ t,
       (obsD (mkD v0) [(t1, DCall.set v (some d)), (t2, DCall.cancel)] t).value
         = v0 ∧
       (obsD (mkD v0) [(t1, DCall.set v (some d)), (t2, DCall.cancel)] t).log
         = []) ∧
    (∀ s : DState T, DInv s → ∀ t,
       (fireDue t (cancelSetState
         (fireDue t2 (setStateAfter t1 v (some d) s)))).value = s.value ∧
       (fireDue t (cancelSetState
         (fireDue t2 (setStateAfter t1 v (some d) s)))).log = s.log) := by
  refine ⟨fun s => ⟨cancelSetState_value s, cancelSetState_log s,
    cancelSetState_ref s⟩, fun s => cancelSetState_of_ref_none s,
    fun s => cancelSetState_timers_of_inv s, ?_, ?_⟩
  case refine_2 =>
    intro s hs t
    obtain ⟨_, hval, hlog, _⟩ := setStateAfter_armed_facts t1 v d hd.ne' s hs
    rw [(fireDue_setStateAfter_pos t2 t1 d v s hs hd.ne').1 (by omega)]
    have hcn : (cancelSetState (setStateAfter t1 v (some d) s)).timers = [] :=
      cancelSetState_timers_of_inv _ (DInv_setStateAfter t1 v (some d) s hs)
    rw [fireDue_of_timers_nil t _ hcn]
    exact ⟨(cancelSetState_value _).trans hval,
      (cancelSetState_log _).trans hlog⟩
  intro t
  by_cases ht2 : t2 ≤ t
  · have hrun : runD (mkD v0) [(t1, DCall.set v (some d)), (t2, DCall.cancel)]
        = (⟨v0, [], none, 1, []⟩ : DState T) := by
      have h0 : runD (mkD v0) [(t1, DCall.set v (some d)), (t2, DCall.cancel)]
          = stepD t2 DCall.cancel
              (fireDue t2 (runD (mkD v0) [(t1, DCall.set v (some d))])) := rfl
      rw [h0, runD_one_delayed v0 v t1 d hd.ne',
        fireDue_armed t2 _ 0 (t1 + d) v rfl,
        if_neg (by omega : ¬ (t1 + d ≤ t2))]
      exact cancelSetState_armed v0 v t1 d
    unfold obsD
    rw [show List.filter (fun e => decide (e.1 ≤ t))
          [(t1, DCall.set v (some d)), (t2, DCall.cancel)] =
          [(t1, DCall.set v (some d)), (t2, DCall.cancel)] by
        simp [List.filter, h12.trans ht2, ht2]]
    rw [hrun, fireDue_of_timers_nil t _ rfl]
    exact ⟨rfl, rfl⟩
  · by_cases ht1 : t1 ≤ t
    · unfold obsD
      rw [show List.filter (fun e => decide (e.1 ≤ t))
            [(t1, DCall.set v (some d)), (t2, DCall.cancel)] =
            [(t1, DCall.set v (some d))] by simp [List.filter, ht1, ht2]]
      rw [runD_one_delayed v0 v t1 d hd.ne',
        fireDue_armed t _ 0 (t1 + d) v rfl,
        if_neg (by omega : ¬ (t1 + d ≤ t))]
      exact ⟨rfl, rfl⟩
    · unfold obsD
      rw [show List.filter (fun e => decide (e.1 ≤ t))
            [(t1, DCall.set v (some d)), (t2, DCall.cancel)] = [] by
          simp [List.filter, ht1, ht2]]
      rw [show runD (mkD v0) [] = mkD v0 from rfl,
        fireDue_of_timers_nil t _ rfl]
      exact ⟨rfl, rfl⟩

/-- Witness for C6: schedule 5 at t = 0 with delay 100, cancel at t = 50;
the value is still 0 at t = 100 and no write was ever logged. -/
theorem cancelEffective_w :
    (obsD (mkD 0) [(0, DCall.set 5 (some 100)), (50, DCall.cancel)] 100).value
      = 0 ∧
    (obsD (mkD 0) [(0, DCall.set 5 (some 100)), (50, DCall.cancel)] 200).log
      = [] := by
  have h := cancelEffective 0 5 0 100 50 (by decide) (by decide) (by decide)
  exact ⟨(h.2.2.2.1 100).1, (h.2.2.2.1 200).2⟩

/-- C1: last write wins — if a second `setStateAfter` is issued before the
first one's delay elapses, the observable value is the initial value until
the second call's (effective) deadline and the second value from then on; in
particular it is never the first value when that is distinct. -/
theorem lastWriteWins (v0 v1 v2 : T) (t1 d1 t2 : Nat) (d2 : Option Nat)
    (hd1 : 0 < d1) (h12 : t1 ≤ t2) (hlt : t2 < t1 + d1) :
    (∀ t, (obsD (mkD v0)
        [(t1, DCall.set v1 (some d1)), (t2, DCall.set v2 d2)] t).value =
      if t2 + d2.getD 0 ≤ t then v2 else v0) ∧
    (v1 ≠ v0 → v1 ≠ v2 →
      ∀ t, (obsD (mkD v0)
        [(t1, DCall.set v1 (some d1)), (t2, DCall.set v2 d2)] t).value
          ≠ v1) ∧
    (∀ s : DState T, DInv s → ∀ t, t2 ≤ t →
      (fireDue t (setStateAfter t2 v2 d2
        (fireDue t2 (setStateAfter t1 v1 (some d1) s)))).value =
        if t2 + d2.getD 0 ≤ t then v2 else s.value) := by
  have main : ∀ t, (obsD (mkD v0)
      [(t1, DCall.set v1 (some d1)), (t2, DCall.set v2 d2)] t).value =
      if t2 + d2.getD 0 ≤ t then v2 else v0 := by
    intro t
    by_cases ht2 : t2 ≤ t
    · have hrun : runD (mkD v0)
          [(t1, DCall.set v1 (some d1)), (t2, DCall.set v2 d2)] =
          setStateAfter t2 v2 d2
            (⟨v0, [⟨0, t1 + d1, v1⟩], some 0, 1, []⟩ : DState T) := by
        have h0 : runD (mkD v0)
            [(t1, DCall.set v1 (some d1)), (t2, DCall.set v2 d2)] =
            stepD t2 (DCall.set v2 d2)
              (fireDue t2 (runD (mkD v0) [(t1, DCall.set v1 (some d1))])) :=
          rfl
        rw [h0, runD_one_delayed v0 v1 t1 d1 hd1.ne',
          fireDue_armed t2 _ 0 (t1 + d1) v1 rfl,
          if_neg (by omega : ¬ (t1 + d1 ≤ t2))]
        rfl
      unfold obsD
      rw [show List.filter (fun e => decide (e.1 ≤ t))
            [(t1, DCall.set v1 (some d1)), (t2, DCall.set v2 d2)] =
            [(t1, DCall.set v1 (some d1)), (t2, DCall.set v2 d2)] by
          simp [List.filter, h12.trans ht2, ht2]]
      rw [hrun]
      match d2 with
      | none =>
          rw [setStateAfter_none, cancelSetState_armed,
            fireDue_of_timers_nil t _ rfl]
          simp [setStateRaw, ht2]
      | some 0 =>
          rw [setStateAfter_zero, cancelSetState_armed,
            fireDue_of_timers_nil t _ rfl]
          simp [setStateRaw, ht2]
      | some (dm + 1) =>
          rw [setStateAfter_pos t2 v2 (dm + 1) (Nat.succ_ne_zero dm) _,
            cancelSetState_armed,
            fireDue_armed t _ 1 (t2 + (dm + 1)) v2 rfl]
          by_cases hdue : t2 + (dm + 1) ≤ t
          · rw [if_pos hdue, if_pos (by simpa using hdue)]
            rfl
          · rw [if_neg hdue, if_neg (by simpa using hdue)]
    · by_cases ht1 : t1 ≤ t
      · unfold obsD
        rw [show List.filter (fun e => decide (e.1 ≤ t))
              [(t1, DCall.set v1 (some d1)), (t2, DCall.set v2 d2)] =
              [(t1, DCall.set v1 (some d1))] by
            simp [List.filter, ht1, ht2]]
        rw [runD_one_delayed v0 v1 t1 d1 hd1.ne',
          fireDue_armed t _ 0 (t1 + d1) v1 rfl,
          if_neg (by omega : ¬ (t1 + d1 ≤ t)),
          if_neg (by omega : ¬ (t2 + d2.getD 0 ≤ t))]
      · unfold obsD
        rw [show List.filter (fun e => decide (e.1 ≤ t))
              [(t1, DCall.set v1 (some d1)), (t2, DCall.set v2 d2)] = [] by
            simp [List.filter, ht1, ht2]]
        rw [show runD (mkD v0) [] = mkD v0 from rfl,
          fireDue_of_timers_nil t _ rfl,
          if_neg (by omega : ¬ (t2 + d2.getD 0 ≤ t))]
        rfl
  refine ⟨main, fun hne0 hne2 t => ?_, ?_⟩
  · rw [main t]
    by_cases h : t2 + d2.getD 0 ≤ t
    · rw [if_pos h]
      exact fun heq => hne2 heq.symm
    · rw [if_neg h]
      exact fun heq => hne0 heq.symm
  · intro s hs t ht
    obtain ⟨_, hval1, _, _⟩ := setStateAfter_armed_facts t1 v1 d1 hd1.ne' s hs
    have hA : DInv (setStateAfter t1 v1 (some d1) s) :=
      DInv_setStateAfter t1 v1 (some d1) s hs
    rw [(fireDue_setStateAfter_pos t2 t1 d1 v1 s hs hd1.ne').1 (by omega)]
    have hcn : (cancelSetState (setStateAfter t1 v1 (some d1) s)).timers
        = [] := cancelSetState_timers_of_inv _ hA
    have hcn' : (setStateRaw v2
        (cancelSetState (setStateAfter t1 v1 (some d1) s))).timers = [] := hcn
    match d2 with
    | none =>
        rw [setStateAfter_none, fireDue_of_timers_nil t _ hcn',
          if_pos (by simpa using ht)]
        rfl
    | some 0 =>
        rw [setStateAfter_zero, fireDue_of_timers_nil t _ hcn',
          if_pos (by simpa using ht)]
        rfl
    | some (dm + 1) =>
        have hfd := fireDue_setStateAfter_pos t t2 (dm + 1) v2
          (setStateAfter t1 v1 (some d1) s) hA (Nat.succ_ne_zero dm)
        by_cases hdue : t2 + (dm + 1) ≤ t
        · rw [(hfd.2 hdue).1, if_pos (by simpa using hdue)]
        · rw [hfd.1 (by omega)]
          obtain ⟨_, hval2, _, _⟩ := setStateAfter_armed_facts t2 v2 (dm + 1)
            (Nat.succ_ne_zero dm) (setStateAfter t1 v1 (some d1) s) hA
          rw [hval2, hval1, if_neg (by simpa using hdue)]

/-- Witness for C1: the spec's scenario — `setStateAfter(1, 100)` at t = 0,
`setStateAfter(2, 100)` at t = 50 gives value 0 at t = 100 and 2 at
t = 150. -/
theorem lastWriteWins_w :
    (obsD (mkD 0) [(0, DCall.set 1 (some 100)), (50, DCall.set 2 (some 100))]
      100).value = 0 ∧
    (obsD (mkD 0) [(0, DCall.set 1 (some 100)), (50, DCall.set 2 (some 100))]
      150).value = 2 ∧
    ∀ t ≤ 1000, (obsD (mkD 0)
      [(0, DCall.set 1 (some 100)), (50, DCall.set 2 (some 100))] t).value
        ≠ 1 := by
  have h := lastWriteWins 0 1 2 0 100 50 (some 100) (by decide) (by decide)
    (by decide)
  refine ⟨?_, ?_, fun t _ => h.2.1 (by decide) (by decide) t⟩
  · rw [h.1 100]
    decide
  · rw [h.1 150]
    decide

/-! ### Lemmas for the follow hook -/

theorem fireDueF_of_nil (now : Nat) (s : FState T)
    (h : s.follow.timers = []) : fireDueF now s = s := by
  unfold fireDueF
  rw [fireDue_of_timers_nil now _ h]

theorem fireDueF_armed (now : Nat) (s : FState T) (h0 fa : Nat) (v : T)
    (h : s.follow.timers = [⟨h0, fa, v⟩]) :
    fireDueF now s =
      if fa ≤ now then { s with follow := fireTimer ⟨h0, fa, v⟩ s.follow }
      else s := by
  unfold fireDueF
  rw [fireDue_armed now s.follow h0 fa v h]
  by_cases hle : fa ≤ now
  · rw [if_pos hle, if_pos hle]
  · rw [if_neg hle, if_neg hle]

/-- State of a fresh follow instance right after `setStateAndFollow v (some d)`
at time `t0` (with `d ≠ 0`): immediate slot already written to `v`, follow
slot untouched with one armed timer. -/
theorem runF_one_delayed [DecidableEq T] (v0 v : T) (t0 d : Nat)
    (hd : d ≠ 0) :
    runF (mkF v0) [(t0, FCall.setAndFollow v (some d))] =
      ⟨v, [v], ⟨v0, [⟨0, t0 + d, v⟩], some 0, 1, []⟩⟩ := by
  simp [runF, stepF, fireDueF, fireDue, fireDueAux, mkF, mkD,
    setStateAndFollow, fsetState, setStateAfter, cancelSetState, setStateRaw,
    hd]

/-- C3: `setStateAndFollow(v, d)` with `d > 0` writes the immediate slot
synchronously while the follow slot keeps its prior value until the delay
elapses, after which it becomes `v`. -/
theorem followDivergesThenConverges [DecidableEq T] (v0 v : T) (t0 d : Nat)
    (hd : 0 < d) :
    (∀ (s : FState T) (now : Nat) (dv : Option Nat),
       (setStateAndFollow now v dv s).state = v) ∧
    (∀ t, t0 ≤ t →
       (obsF (mkF v0) [(t0, FCall.setAndFollow v (some d))] t).state = v) ∧
    (∀ t, t0 ≤ t → t < t0 + d →
       (obsF (mkF v0)
         [(t0, FCall.setAndFollow v (some d))] t).follow.value = v0) ∧
    (∀ t, t0 + d ≤ t →
       (obsF (mkF v0)
         [(t0, FCall.setAndFollow v (some d))] t).follow.value = v) ∧
    (∀ s : FState T,
       (setStateAndFollow t0 v (some d) s).follow.value = s.follow.value) ∧
    (∀ s : FState T, DInv s.follow → ∀ t, t < t0 + d →
       (fireDueF t (setStateAndFollow t0 v (some d) s)).follow.value
         = s.follow.value ∧
       (fireDueF t (setStateAndFollow t0 v (some d) s)).state = v) ∧
    (∀ s : FState T, DInv s.follow → ∀ t, t0 + d ≤ t →
       (fireDueF t (setStateAndFollow t0 v (some d) s)).follow.value
         = v) := by
  have hobs : ∀ t, t0 ≤ t →
      obsF (mkF v0) [(t0, FCall.setAndFollow v (some d))] t =
        fireDueF t
          (⟨v, [v], ⟨v0, [⟨0, t0 + d, v⟩], some 0, 1, []⟩⟩ : FState T) := by
    intro t ht
    unfold obsF
    rw [show List.filter (fun e => decide (e.1 ≤ t))
          [(t0, FCall.setAndFollow v (some d))] =
          [(t0, FCall.setAndFollow v (some d))] by simp [List.filter, ht]]
    rw [runF_one_delayed v0 v t0 d hd.ne']
  refine ⟨fun s now dv => rfl, ?_, ?_, ?_, ?_, ?_, ?_⟩
  · intro t ht
    rw [hobs t ht, fireDueF_armed t _ 0 (t0 + d) v rfl]
    by_cases hle : t0 + d ≤ t
    · rw [if_pos hle]
    · rw [if_neg hle]
  · intro t ht hlt
    rw [hobs t ht, fireDueF_armed t _ 0 (t0 + d) v rfl,
      if_neg (by omega : ¬ (t0 + d ≤ t))]
  · intro t hge
    rw [hobs t (by omega), fireDueF_armed t _ 0 (t0 + d) v rfl,
      if_pos (by omega : t0 + d ≤ t)]
    rfl
  · intro s
    show (setStateAfter t0 v (some d) s.follow).value = s.follow.value
    rw [setStateAfter_pos t0 v d hd.ne' s.follow]
    exact cancelSetState_value s.follow
  · intro s hdf t hlt
    constructor
    · show (fireDue t (setStateAfter t0 v (some d) s.follow)).value
        = s.follow.value
      rw [(fireDue_setStateAfter_pos t t0 d v s.follow hdf hd.ne').1 hlt]
      exact (setStateAfter_armed_facts t0 v d hd.ne' s.follow hdf).2.1
    · rfl
  · intro s hdf t hge
    show (fireDue t (setStateAfter t0 v (some d) s.follow)).value = v
    exact ((fireDue_setStateAfter_pos t t0 d v s.follow hdf hd.ne').2 hge).1

/-- Witness for C3 with initial 0, `setStateAndFollow(7, 10)` at t = 0. -/
theorem followDivergesThenConverges_w :
    (obsF (mkF 0) [(0, FCall.setAndFollow 7 (some 10))] 0).state = 7 ∧
    (obsF (mkF 0) [(0, FCall.setAndFollow 7 (some 10))] 9).follow.value = 0 ∧
    (obsF (mkF 0) [(0, FCall.setAndFollow 7 (some 10))] 10).follow.value
      = 7 := by
  have h := followDivergesThenConverges 0 7 0 10 (by decide)
  exact ⟨h.2.1 0 (by decide), h.2.2.1 9 (by decide) (by decide),
    h.2.2.2.1 10 (by decide)⟩

/-- C2: reverting before the follow delay elapses discards the pending
timer and collapses both slots to the unchanged follow value `v1`; the
reconciling write to the immediate slot happens only when the two slots
differ; and neither slot is ever `v2` from the revert on. -/
theorem revertSemantics [DecidableEq T] (v1 v2 : T) (t1 d t2 : Nat)
    (hd : 0 < d) (h12 : t1 ≤ t2) (hlt : t2 < t1 + d) :
    (∀ s : FState T, s.state = s.follow.value →
       revertStateToFollow s = { s with follow := cancelSetState s.follow }) ∧
    (∀ s : FState T, s.state ≠ s.follow.value →
       revertStateToFollow s =
         fsetState s.follow.value
           { s with follow := cancelSetState s.follow }) ∧
    (∀ t, t2 ≤ t →
       (obsF (mkF v1)
         [(t1, FCall.setAndFollow v2 (some d)), (t2, FCall.revert)] t).state
           = v1 ∧
       (obsF (mkF v1)
         [(t1, FCall.setAndFollow v2 (some d)),
          (t2, FCall.revert)] t).follow.value = v1 ∧
       (obsF (mkF v1)
         [(t1, FCall.setAndFollow v2 (some d)),
          (t2, FCall.revert)] t).follow.timers = []) ∧
    (v2 ≠ v1 → ∀ t, t2 ≤ t →
       (obsF (mkF v1)
         [(t1, FCall.setAndFollow v2 (some d)), (t2, FCall.revert)] t).state
           ≠ v2 ∧
       (obsF (mkF v1)
         [(t1, FCall.setAndFollow v2 (some d)),
          (t2, FCall.revert)] t).follow.value ≠ v2) ∧
    (∀ s : FState T, DInv s.follow → s.follow.value = v1 →
       (revertStateToFollow (fireDueF t2
         (setStateAndFollow t1 v2 (some d) s))).state = v1 ∧
       (revertStateToFollow (fireDueF t2
         (setStateAndFollow t1 v2 (some d) s))).follow.value = v1 ∧
       (revertStateToFollow (fireDueF t2
         (setStateAndFollow t1 v2 (some d) s))).follow.timers = []) := by
  have hcond : ∀ s : FState T,
      revertStateToFollow s =
        if s.state ≠ s.follow.value then
          fsetState s.follow.value { s with follow := cancelSetState s.follow }
        else { s with follow := cancelSetState s.follow } := fun s => rfl
  have hrun : runF (mkF v1)
      [(t1, FCall.setAndFollow v2 (some d)), (t2, FCall.revert)] =
      revertStateToFollow
        (⟨v2, [v2], ⟨v1, [⟨0, t1 + d, v2⟩], some 0, 1, []⟩⟩ : FState T) := by
    have h0 : runF (mkF v1)
        [(t1, FCall.setAndFollow v2 (some d)), (t2, FCall.revert)] =
        stepF t2 FCall.revert
          (fireDueF t2
            (runF (mkF v1) [(t1, FCall.setAndFollow v2 (some d))])) := rfl
    rw [h0, runF_one_delayed v1 v2 t1 d hd.ne',
      fireDueF_armed t2 _ 0 (t1 + d) v2 rfl,
      if_neg (by omega : ¬ (t1 + d ≤ t2))]
    rfl
  have hproj :
      (runF (mkF v1)
        [(t1, FCall.setAndFollow v2 (some d)), (t2, FCall.revert)]).state
          = v1 ∧
      (runF (mkF v1)
        [(t1, FCall.setAndFollow v2 (some d)),
         (t2, FCall.revert)]).follow.value = v1 ∧
      (runF (mkF v1)
        [(t1, FCall.setAndFollow v2 (some d)),
         (t2, FCall.revert)]).follow.timers = [] := by
    rw [hrun, hcond]
    by_cases hv : v2 = v1
    · rw [if_neg (by simpa using hv)]
      refine ⟨hv, ?_, ?_⟩ <;>
        simp [cancelSetState, List.filter]
    · rw [if_pos (by simpa using hv)]
      refine ⟨rfl, ?_, ?_⟩ <;>
        simp [fsetState, cancelSetState, List.filter]
  have hobs : ∀ t, t2 ≤ t →
      obsF (mkF v1)
        [(t1, FCall.setAndFollow v2 (some d)), (t2, FCall.revert)] t =
        runF (mkF v1)
          [(t1, FCall.setAndFollow v2 (some d)), (t2, FCall.revert)] := by
    intro t ht
    unfold obsF
    rw [show List.filter (fun e => decide (e.1 ≤ t))
          [(t1, FCall.setAndFollow v2 (some d)), (t2, FCall.revert)] =
          [(t1, FCall.setAndFollow v2 (some d)), (t2, FCall.revert)] by
        simp [List.filter, h12.trans ht, ht]]
    exact fireDueF_of_nil t _ hproj.2.2
  refine ⟨?_, ?_, ?_, ?_, ?_⟩
  · intro s hs
    rw [hcond s, if_neg (by simpa using hs)]
  · intro s hs
    rw [hcond s, if_pos hs]
  · intro t ht
    rw [hobs t ht]
    exact hproj
  · intro hne t ht
    rw [hobs t ht]
    constructor
    · rw [hproj.1]
      exact fun h => hne h.symm
    · rw [hproj.2.1]
      exact fun h => hne h.symm
  · intro s hdf hv1
    obtain ⟨harmT, harmV, _, _⟩ :=
      setStateAfter_armed_facts t1 v2 d hd.ne' s.follow hdf
    have hfix : fireDueF t2 (setStateAndFollow t1 v2 (some d) s)
        = setStateAndFollow t1 v2 (some d) s := by
      rw [fireDueF_armed t2 _ s.follow.nextHandle (t1 + d) v2 harmT,
        if_neg (by omega : ¬ (t1 + d ≤ t2))]
    have hAfv : (setStateAndFollow t1 v2 (some d) s).follow.value = v1 :=
      harmV.trans hv1
    have hDA : DInv (setStateAndFollow t1 v2 (some d) s).follow :=
      DInv_setStateAfter t1 v2 (some d) s.follow hdf
    have hcv : (cancelSetState
        (setStateAndFollow t1 v2 (some d) s).follow).value = v1 :=
      (cancelSetState_value _).trans hAfv
    have hct : (cancelSetState
        (setStateAndFollow t1 v2 (some d) s).follow).timers = [] :=
      cancelSetState_timers_of_inv _ hDA
    rw [hfix, hcond]
    by_cases hveq : v2 = v1
    · rw [if_neg (by
        rw [hAfv]
        show ¬ (v2 ≠ v1)
        simpa using hveq)]
      exact ⟨hveq, hcv, hct⟩
    · rw [if_pos (by
        rw [hAfv]
        show v2 ≠ v1
        exact hveq)]
      exact ⟨hAfv, hcv, hct⟩

/-- Witness for C2: the spec's scenario with 0 for `""` and 7 for `"hi"` —
`setStateAndFollow(7, 1000)` at t = 0, revert at t = 500; at t = 1000 both
slots hold 0 and no timer is left. -/
theorem revertSemantics_w :
    (obsF (mkF 0) [(0, FCall.setAndFollow 7 (some 1000)),
      (500, FCall.revert)] 1000).state = 0 ∧
    (obsF (mkF 0) [(0, FCall.setAndFollow 7 (some 1000)),
      (500, FCall.revert)] 1000).follow.value = 0 ∧
    (obsF (mkF 0) [(0, FCall.setAndFollow 7 (some 1000)),
      (500, FCall.revert)] 1000).follow.timers = [] := by
  have h := revertSemantics 0 7 0 1000 500 (by decide) (by decide) (by decide)
  exact h.2.2.1 1000 (by decide)

/-- Unfolding equation for `revertStateToFollow`. -/
theorem revertStateToFollow_eq [DecidableEq T] (s : FState T) :
    revertStateToFollow s =
      if s.state ≠ s.follow.value then
        fsetState s.follow.value { s with follow := cancelSetState s.follow }
      else { s with follow := cancelSetState s.follow } := rfl

/-- Reachable-state invariant of a `useFollowState` instance: the follow
slot satisfies the delayed-state invariant, and every armed follow timer
targets the current immediate value. -/
def FInv (s : FState T) : Prop :=
  DInv s.follow ∧ ∀ tm ∈ s.follow.timers, tm.val = s.state

theorem FInv_mkF (v : T) : FInv (mkF v) := by
  refine ⟨DInv_mkD v, ?_⟩
  intro tm hm
  simp [mkF, mkD] at hm

theorem FInv_fireDueF (now : Nat) (s : FState T) (h : FInv s) :
    FInv (fireDueF now s) := by
  obtain ⟨hd, hv⟩ := h
  refine ⟨DInv_fireDue now s.follow hd, ?_⟩
  rcases hd with ⟨ht, _⟩ | ⟨tm, ht, _⟩
  · rw [fireDueF_of_nil now s ht]
    exact hv
  · by_cases hle : tm.fireAt ≤ now
    · intro tm2 hm
      have hm' : tm2 ∈ (fireDue now s.follow).timers := hm
      rw [fireDue_single now s.follow tm ht, if_pos hle,
        fireTimer_timers_single tm s.follow ht] at hm'
      simp at hm'
    · have hfix : fireDueF now s = s := by
        unfold fireDueF
        rw [fireDue_single now s.follow tm ht, if_neg hle]
      rw [hfix]
      exact hv

theorem FInv_setStateAndFollow (now : Nat) (v : T) (d : Option Nat)
    (s : FState T) (h : FInv s) : FInv (setStateAndFollow now v d s) := by
  obtain ⟨hd, _⟩ := h
  have hc : (cancelSetState s.follow).timers = [] :=
    cancelSetState_timers_of_inv _ hd
  refine ⟨DInv_setStateAfter now v d s.follow hd, ?_⟩
  intro tm hm
  have hm' : tm ∈ (setStateAfter now v d s.follow).timers := hm
  show tm.val = v
  match d with
  | none =>
      rw [setStateAfter_none] at hm'
      simp [setStateRaw, hc] at hm'
  | some dm =>
      by_cases hdm : dm = 0
      · subst hdm
        rw [setStateAfter_zero] at hm'
        simp [setStateRaw, hc] at hm'
      · rw [setStateAfter_pos now v dm hdm] at hm'
        simp [hc] at hm'
        rw [hm']

theorem FInv_revertStateToFollow [DecidableEq T] (s : FState T)
    (h : FInv s) : FInv (revertStateToFollow s) := by
  obtain ⟨hd, _⟩ := h
  have hc : (cancelSetState s.follow).timers = [] :=
    cancelSetState_timers_of_inv _ hd
  have hdc : DInv (cancelSetState s.follow) := DInv_cancelSetState _ hd
  rw [revertStateToFollow_eq s]
  by_cases hv : s.state ≠ s.follow.value
  · rw [if_pos hv]
    refine ⟨hdc, ?_⟩
    intro tm hm
    have hm' : tm ∈ (cancelSetState s.follow).timers := hm
    rw [hc] at hm'
    simp at hm'
  · rw [if_neg hv]
    refine ⟨hdc, ?_⟩
    intro tm hm
    have hm' : tm ∈ (cancelSetState s.follow).timers := hm
    rw [hc] at hm'
    simp at hm'

theorem FInv_stepF [DecidableEq T] (now : Nat) (c : FCall T) (s : FState T)
    (h : FInv s) : FInv (stepF now c s) := by
  match c with
  | .setAndFollow v d => exact FInv_setStateAndFollow now v d s h
  | .revert => exact FInv_revertStateToFollow s h

theorem FInv_runF [DecidableEq T] (s : FState T)
    (evs : List (Nat × FCall T)) (h : FInv s) : FInv (runF s evs) := by
  induction evs generalizing s with
  | nil => exact h
  | cons e rest ih =>
      exact ih _ (FInv_stepF e.1 e.2 _ (FInv_fireDueF e.1 s h))

theorem FInv_obsF [DecidableEq T] (s : FState T)
    (evs : List (Nat × FCall T)) (t : Nat) (h : FInv s) :
    FInv (obsF s evs t) :=
  FInv_fireDueF t _ (FInv_runF s _ h)

/-- C9: in every state reachable through the public follow operations, any
pending follow timer's target equals the current immediate value, and a
firing that changes the follow value always makes it equal to the immediate
value. -/
theorem followTimerTargetsImmediate [DecidableEq T] (v0 : T)
    (evs : List (Nat × FCall T)) :
    (∀ tm ∈ (runF (mkF v0) evs).follow.timers,
       tm.val = (runF (mkF v0) evs).state) ∧
    (∀ t, ∀ tm ∈ (obsF (mkF v0) evs t).follow.timers,
       tm.val = (obsF (mkF v0) evs t).state) ∧
    (∀ t, (fireDueF t (runF (mkF v0) evs)).follow.value ≠
        (runF (mkF v0) evs).follow.value →
       (fireDueF t (runF (mkF v0) evs)).follow.value =
         (runF (mkF v0) evs).state) := by
  refine ⟨(FInv_runF (mkF v0) evs (FInv_mkF v0)).2,
    fun t => (FInv_obsF (mkF v0) evs t (FInv_mkF v0)).2, ?_⟩
  intro t hne
  obtain ⟨hd, hv⟩ := FInv_runF (mkF v0) evs (FInv_mkF v0)
  rcases hd with ⟨ht, _⟩ | ⟨tm, ht, _⟩
  · rw [fireDueF_of_nil t _ ht] at hne
    exact absurd rfl hne
  · by_cases hle : tm.fireAt ≤ t
    · have hval : (fireDueF t (runF (mkF v0) evs)).follow.value = tm.val := by
        show (fireDue t (runF (mkF v0) evs).follow).value = tm.val
        rw [fireDue_single t _ tm ht, if_pos hle]
        rfl
      rw [hval]
      refine hv tm ?_
      rw [ht]
      exact List.mem_singleton.mpr rfl
    · have hfix : fireDueF t (runF (mkF v0) evs) = runF (mkF v0) evs := by
        unfold fireDueF
        rw [fireDue_single t _ tm ht, if_neg hle]
      rw [hfix] at hne
      exact absurd rfl hne

/-- Witness for C9: after `setStateAndFollow(7, 5)` at t = 0 on a fresh
instance, the armed timer targets 7 — the immediate value — and firing it
makes the follow value 7 as well. -/
theorem followTimerTargetsImmediate_w :
    (⟨0, 5, 7⟩ : Timer Nat) ∈
      (runF (mkF 0) [(0, FCall.setAndFollow 7 (some 5))]).follow.timers ∧
    (⟨0, 5, 7⟩ : Timer Nat).val =
      (runF (mkF 0) [(0, FCall.setAndFollow 7 (some 5))]).state ∧
    (fireDueF 5
      (runF (mkF 0) [(0, FCall.setAndFollow 7 (some 5))])).follow.value
        = 7 := by
  have h := followTimerTargetsImmediate 0 [(0, FCall.setAndFollow 7 (some 5))]
  refine ⟨by decide, h.1 ⟨0, 5, 7⟩ (by decide), ?_⟩
  exact (h.2.2 5 (by decide)).trans (by decide)

end DelayFollow
